import Mathlib

/-!
Shallow embedding of the BackerUpper backup tool (src/backerupper.py and
src/cli.py), and proofs about its archive naming, rotation and retention
logic.

Modelling conventions:
* Filenames are `String`s; the destination directory listing is a
  `List String` of filenames (the tool only ever globs, renames, creates
  and unlinks files inside the single destination directory).
* A resolved `pathlib.Path` is modelled by its dirname/basename split
  (`PyPath`); `expanduser`/`resolve` are modelled as the identity on
  already-canonical absolute paths, which is what they are for such inputs.
* Fallible Python code is modelled with `Except`; an error value carries
  the filesystem state at raise time, because a propagating exception
  leaves all mutations performed so far in place.
* Python `sorted` is a stable comparison sort; it is modelled by
  `List.insertionSort`, which is stable for a total reflexive relation and
  therefore extensionally equal to `sorted` for the relations used here.
* Python string comparison (used by `sorted(..., reverse=True)` on paths
  that differ only in their final component) is code-point lexicographic;
  it is modelled by `lexLt`/`pyStrLe` below.
* `unlinkFails` lists the filenames whose `unlink` raises `OSError`;
  renames and archive creation are modelled as succeeding, since no claim
  in scope depends on their failure.
-/

/-- Decimal digit character for `n % 10` (code points 48..57). -/
def digitChar (n : Nat) : Char := Char.ofNat (48 + n % 10)

/-- Numeric value of a decimal digit character. -/
def charVal (c : Char) : Nat := c.toNat - 48

/-- Split a character list on a separator character, Python `str.split(sep)`
on a text with no empty separator: `splitOnChar c "a.b"` is `["a","b"]`,
and the empty text yields `[""]`. -/
def splitOnChar (sep : Char) : List Char → List (List Char)
  | [] => [[]]
  | c :: rest =>
    if c = sep then [] :: splitOnChar sep rest
    else
      match splitOnChar sep rest with
      | [] => [[c]]
      | p :: ps => (c :: p) :: ps

/-- Join character lists with a separator character, Python `sep.join(...)`. -/
def joinChar (sep : Char) : List (List Char) → List Char
  | [] => []
  | [p] => p
  | p :: ps => p ++ sep :: joinChar sep ps

/-- Fuel-driven digit renderer: for `n < fuel` this yields the decimal
digits of `n`, most significant first, with no leading zeros. Structural
recursion on the fuel keeps the definition kernel-computable. -/
def natDigitsAux : Nat → Nat → List Char
  | 0, _ => []
  | fuel + 1, n =>
    if n < 10 then [digitChar n]
    else natDigitsAux fuel (n / 10) ++ [digitChar n]

/-- Decimal digits of a natural number, most significant first, no leading
zeros; the digits of Python `str(n)` for a nonnegative `int`. -/
def natDigits (n : Nat) : List Char := natDigitsAux (n + 1) n

/-- Model of Python `str(n)` for a nonnegative integer. -/
def pyStrNat (n : Nat) : String := String.mk (natDigits n)

/-- Model of Python `str(i)` for an arbitrary integer: plain decimal,
no padding, a leading minus sign for negative values. -/
def pyStrInt : Int → String
  | .ofNat n => pyStrNat n
  | .negSucc n => "-" ++ pyStrNat (n + 1)

/-- Value of a most-significant-first digit string. -/
def digitsVal (cs : List Char) : Nat := cs.foldl (fun acc c => 10 * acc + charVal c) 0

/-- Characters stripped by Python `int(str)` around the literal. -/
def isPySpace (c : Char) : Bool :=
  (c = ' ') || (c = '\t') || (c = '\n') || (c = '\r') || (c = '\x0b') || (c = '\x0c')

/-- Strip leading and trailing Python whitespace. -/
def stripPySpace (cs : List Char) : List Char :=
  ((cs.dropWhile isPySpace).reverse.dropWhile isPySpace).reverse

/-- Continue parsing a Python decimal digit sequence after at least one
digit has been read: further digits, with single underscores allowed
between digits (the CPython `digitpart` grammar). -/
def parseDigitsRest (acc : Nat) : List Char → Option Nat
  | [] => some acc
  | c :: rest =>
    if c = '_' then
      match rest with
      | [] => none
      | d :: rest2 => if d.isDigit then parseDigitsRest (10 * acc + charVal d) rest2 else none
    else if c.isDigit then parseDigitsRest (10 * acc + charVal c) rest else none

/-- Parse a nonempty Python decimal digit sequence (digits with optional
single underscores between digits). -/
def parseDigits : List Char → Option Nat
  | [] => none
  | c :: rest => if c.isDigit then parseDigitsRest (charVal c) rest else none

/-- Model of Python `int(s)` on an ASCII string: optional surrounding
whitespace, an optional sign, then a nonempty digit sequence; `none` models
the `ValueError` raised on any other input. -/
def pyParseInt? (s : String) : Option Int :=
  match stripPySpace s.data with
  | '+' :: rest => (parseDigits rest).map (fun n => (n : Int))
  | '-' :: rest => (parseDigits rest).map (fun n => -(n : Int))
  | cs => (parseDigits cs).map (fun n => (n : Int))

/-- Strict code-point lexicographic order on character lists; the order
Python uses to compare strings. -/
def lexLt : List Char → List Char → Bool
  | [], [] => false
  | [], _ :: _ => true
  | _ :: _, [] => false
  | a :: as, b :: bs => if a < b then true else if b < a then false else lexLt as bs

/-- Model of Python string `<=` (code-point lexicographic). -/
def pyStrLe (a b : String) : Bool := !(lexLt b.data a.data)

/-- Model of Python `str.rsplit(".", 2)` at the character level: split from
the right on at most the last two dots. -/
def rsplit2Chars (cs : List Char) : List (List Char) :=
  let parts := splitOnChar '.' cs
  if parts.length ≤ 3 then parts
  else joinChar '.' (parts.take (parts.length - 2)) :: parts.drop (parts.length - 2)

/-- Model of `name.rsplit(".", 2)` as used throughout backerupper.py. -/
def rsplitDot2 (s : String) : List String := (rsplit2Chars s.data).map String.mk

/-- The marker segment of an archive filename: `parts[1]` of the
right-split used by the rotation and retention code. For every filename
matching the glob pattern the split has exactly three parts, so index 1
is the marker segment. -/
def markerSeg (s : String) : String := (rsplitDot2 s).getD 1 ""

/-- Model of Python `".".join(parts)`. -/
def dotJoin : List String → String
  | [] => ""
  | [p] => p
  | p :: ps => p ++ "." ++ dotJoin ps

/-- Model of matching a filename against the glob pattern `stem.*.ext`
(backerupper.py line 51-53), for a stem and extension containing no glob
metacharacters: the name must start with `stem.`, end with `.ext`, and be
long enough that the two fixed parts do not overlap (`*` may match the
empty middle). -/
def globMatch (stem ext : String) (name : String) : Bool :=
  (stem.data ++ ['.']).isPrefixOf name.data &&
    ('.' :: ext.data).isSuffixOf name.data &&
    decide (stem.data.length + ext.data.length + 2 ≤ name.data.length)

/-- A resolved absolute `pathlib.Path`, modelled by its dirname/basename
split (`p.parent`, `p.name`). -/
structure PyPath where
  parent : String
  name : String
deriving DecidableEq

/-- The path as a string, as rendered by an f-string on a `Path`. -/
def PyPath.str (p : PyPath) : String := p.parent ++ "/" ++ p.name

/-- Turn a canonical absolute path string into its dirname/basename split. -/
def pathOfString (s : String) : PyPath :=
  let parts := splitOnChar '/' s.data
  { parent := String.mk (joinChar '/' parts.dropLast),
    name := String.mk (parts.getLastD []) }

/-- A UTC wall-clock instant as produced by `datetime.now(timezone.utc)`:
the fields read by the `strftime` format string in use. -/
structure UtcTime where
  year : Nat
  month : Nat
  day : Nat
  hour : Nat
  minute : Nat
  second : Nat
  microsecond : Nat

/-- Zero-padded fixed-width decimal rendering: the low `w` decimal digits
of `n`, most significant first. For `n < 10 ^ w` this is the zero-padded
decimal of `n`, which is what every strftime directive below receives. -/
def padDigits : Nat → Nat → List Char
  | 0, _ => []
  | w + 1, n => padDigits w (n / 10) ++ [digitChar n]

/-- Model of `datetime.strftime("%Y-%m-%dT%H-%M-%S-%fZ")` (backerupper.py
line 180) for an in-range UTC datetime: four-digit year (datetime years of
the current era, 1000..9999, render as exactly four digits), two-digit
zero-padded month, day, hour, minute and second, and a six-digit
zero-padded microsecond count for `%f`. -/
def strftimeMarker (t : UtcTime) : String :=
  String.mk (padDigits 4 t.year ++ '-' :: padDigits 2 t.month ++ '-' :: padDigits 2 t.day ++
    'T' :: padDigits 2 t.hour ++ '-' :: padDigits 2 t.minute ++ '-' :: padDigits 2 t.second ++
    '-' :: padDigits 6 t.microsecond ++ ['Z'])

/-- The keyword arguments of one invocation, as passed by cli.py `main`.
`destination` distinguishes the keyword being absent (`none`, only
possible for direct library calls), present but bound to Python `None`
(`some none`, what the CLI passes when `--to` is omitted), and present
with a path string (`some (some d)`). `retention_count`, `sequential` and
`uncompressed` carry the CLI defaults used by `kwargs.get`. -/
structure Kwargs where
  source : String
  destination : Option (Option String) := none
  retention_count : Int := 10
  sequential : Bool := false
  uncompressed : Bool := false

/-- The Python exceptions the modelled code can raise. `valueError` from
`int()` carries the offending literal (the marker segment), as the real
`ValueError` message does. -/
inductive PyError where
  | valueError (msg : String)
  | typeError (msg : String)
  | fileNotFoundError (path : String)
  | osError (path : String)
deriving DecidableEq

/-- The filesystem state the tool touches: the set of existing source
paths, and the listing of the destination directory. -/
structure FS where
  sources : List String
  destFiles : List String
deriving DecidableEq

/-- Model of `BackerUpper.gather_matching_archives` (backerupper.py lines
39-55): right-split the archive name into `[stem, marker, ext]`, build the
glob pattern `stem.*.ext`, and return it with the matching filenames of
the destination directory in listing order. -/
def gather_matching_archives (files : List String) (archive : PyPath) : String × List String :=
  let parts := rsplitDot2 archive.name
  let stem := parts.headD ""
  let ext := parts.getLastD ""
  let pattern := dotJoin [stem, "*", ext]
  (pattern, files.filter (fun n => globMatch stem ext n))

/-- Model of the first loop of `move_previous_archives` and of the
sequential branch of `remove_previous_archives` (backerupper.py lines
81-84 and 132-135): pair each matching archive with `int(parts[1])`,
raising `ValueError` at the first marker segment that is not a valid
integer. -/
def markerItems : List String → Except PyError (List (Int × String))
  | [] => .ok []
  | item :: rest =>
    match pyParseInt? (markerSeg item) with
    | none => .error (.valueError (markerSeg item))
    | some m => (markerItems rest).map (fun items => (m, item) :: items)

/-- Add a filename to a directory listing; an existing same-named entry is
replaced (POSIX rename and `tarfile.open(..., "w")` both overwrite). -/
def insertName (files : List String) (n : String) : List String :=
  if n ∈ files then files else files ++ [n]

/-- Apply a sequence of renames to a directory listing, in order. -/
def renameAll : List String → List (String × String) → List String
  | files, [] => files
  | files, (old, new) :: rest => renameAll (insertName (files.erase old) new) rest

/-- True when no rename target in the sequence collides with a file
present at the moment that rename runs (a collision would make POSIX
`rename` silently overwrite that file). -/
def collisionFree : List String → List (String × String) → Bool
  | _, [] => true
  | files, (old, new) :: rest =>
    !((files.erase old).contains new) && collisionFree (insertName (files.erase old) new) rest

/-- Model of the rename-target computation of `move_previous_archives`
(backerupper.py lines 93-95): right-split the name, replace the marker
segment by `str(int(marker) + 1)`, and rejoin with dots. -/
def incrementName (item : String) : String :=
  let parts := rsplitDot2 item
  dotJoin (parts.set 1 (pyStrInt ((pyParseInt? (parts.getD 1 "")).getD 0 + 1)))

/-- Model of `BackerUpper.move_previous_archives` (backerupper.py lines
57-97). Returns the new directory listing together with the list of
renames performed, in execution order: nothing happens unless
`sequential`; otherwise the matching archives are paired with their
integer markers (ValueError on a malformed marker, before any rename),
sorted by marker descending (stably, as Python `sorted` with
`reverse=True`), and each is renamed to the same name with marker + 1. -/
def move_previous_archives (kw : Kwargs) (files : List String) (archive : PyPath) :
    Except (PyError × List String) (List String × List (String × String)) :=
  if !kw.sequential then .ok (files, [])
  else
    let pa := gather_matching_archives files archive
    if pa.2.isEmpty then .ok (files, [])
    else
      match markerItems pa.2 with
      | .error e => .error (e, files)
      | .ok items =>
        let itemsOrdered := List.insertionSort (fun a b => b.1 ≤ a.1) items
        let renames := (itemsOrdered.map (fun i => i.2)).map (fun item => (item, incrementName item))
        .ok (renameAll files renames, renames)

/-- Model of the deletion loop of `remove_previous_archives`
(backerupper.py lines 148-150): `for item in archives[retention_count:]:
item.unlink()`. Each unlink either removes the file or raises `OSError`
(for filenames in `unlinkFails`); a raise propagates immediately,
abandoning the rest of the loop with the deletions so far in place. -/
def deleteLoop (unlinkFails : List String) : List String → List String → Except (PyError × List String) (List String)
  | files, [] => .ok files
  | files, item :: rest =>
    if item ∈ unlinkFails then .error (.osError item, files)
    else deleteLoop unlinkFails (files.erase item) rest

/-- Model of `BackerUpper.remove_previous_archives` (backerupper.py lines
99-150): no-op when the retention count is zero or negative, or when the
matching archives do not exceed it; otherwise order the matching archives
newest-first (ascending integer marker when `sequential`, code-point
descending filenames otherwise — Python sorts the full `Path`s, which all
share the destination directory prefix, so the order is that of the
filenames), keep the first `retention_count`, and unlink the rest in
order. -/
def remove_previous_archives (unlinkFails : List String) (kw : Kwargs) (files : List String) (archive : PyPath) :
    Except (PyError × List String) (List String) :=
  if kw.retention_count ≤ 0 then .ok files
  else
    let pa := gather_matching_archives files archive
    if (pa.2.length : Int) ≤ kw.retention_count then .ok files
    else
      if kw.sequential then
        match markerItems pa.2 with
        | .error e => .error (e, files)
        | .ok items =>
          let itemsOrdered := List.insertionSort (fun a b => a.1 ≤ b.1) items
          deleteLoop unlinkFails files ((itemsOrdered.map (fun i => i.2)).drop kw.retention_count.toNat)
      else
        let archives2 := List.insertionSort (fun a b => pyStrLe b a = true) pa.2
        deleteLoop unlinkFails files (archives2.drop kw.retention_count.toNat)

/-- Model of `BackerUpper.resolve_source` (backerupper.py lines 195-203):
`Path(source).expanduser().resolve(strict=True)` raises
`FileNotFoundError` when the canonical source path does not exist, and
otherwise yields the resolved path. -/
def resolve_source (fs : FS) (kw : Kwargs) : Except PyError PyPath :=
  if kw.source ∈ fs.sources then .ok (pathOfString kw.source)
  else .error (.fileNotFoundError kw.source)

/-- Model of `BackerUpper.resolve_destination` (backerupper.py lines
152-193). `kwargs.get("destination", source.parent)` yields the source
parent only when the key is absent; when the key is present and bound to
`None`, the value is not a `Path`, so `Path(None)` raises `TypeError`.
The marker is the literal `1` under the sequential scheme and the
strftime timestamp otherwise; the extension is `tar` for uncompressed
archives and `tgz` otherwise; the archive path is
`<destination>/<source.name>.<marker>.<ext>`. -/
def resolve_destination (kw : Kwargs) (source : PyPath) (now : UtcTime) : Except PyError PyPath :=
  let marker := if kw.sequential then pyStrInt 1 else strftimeMarker now
  let ext := if kw.uncompressed then "tar" else "tgz"
  match kw.destination with
  | some none => .error (.typeError "argument should be a str or os.PathLike object, not NoneType")
  | some (some d) => .ok { parent := d, name := source.name ++ "." ++ marker ++ "." ++ ext }
  | none => .ok { parent := source.parent, name := source.name ++ "." ++ marker ++ "." ++ ext }

/-- Model of `BackerUpper.create_archive` (backerupper.py lines 19-37):
stream the source into a new archive file at the destination; in this
model, the archive name appears in the destination listing. -/
def create_archive (files : List String) (archive : PyPath) : List String :=
  insertName files archive.name

/-- Model of `BackerUpper.__call__` (backerupper.py lines 10-17) as driven
by cli.py `main`: resolve the source (FileNotFoundError stops the run
before any mutation), resolve the destination archive path, rotate
previous sequential archives, create the archive, then enforce retention.
An error carries the filesystem state at raise time. -/
def backerUpperCall (unlinkFails : List String) (fs : FS) (now : UtcTime) (kw : Kwargs) :
    Except (PyError × FS) FS :=
  match resolve_source fs kw with
  | .error e => .error (e, fs)
  | .ok source =>
    match resolve_destination kw source now with
    | .error e => .error (e, fs)
    | .ok archive =>
      match move_previous_archives kw fs.destFiles archive with
      | .error (e, files) => .error (e, { fs with destFiles := files })
      | .ok (files1, _) =>
        let files2 := create_archive files1 archive
        match remove_previous_archives unlinkFails kw files2 archive with
        | .error (e, files) => .error (e, { fs with destFiles := files })
        | .ok files3 => .ok { fs with destFiles := files3 }

/-- Model of the `__main__` block of cli.py (lines 88-95): run `main`
inside `try`; on success fall off the end of the script (exit status 0,
nothing logged as an error); on an exception, log the error and re-raise
it only when `--debug` was given (an unhandled re-raised exception makes
the interpreter exit with status 1), otherwise fall through to a normal
exit 0. Returns (exit status, whether an error line was logged). -/
def cliMain (unlinkFails : List String) (fs : FS) (now : UtcTime) (kw : Kwargs) (debug : Bool) :
    Nat × Bool :=
  match backerUpperCall unlinkFails fs now kw with
  | .ok _ => (0, false)
  | .error _ => (if debug then 1 else 0, true)

/-- The integer marker encoded in an archive filename, as the retention
and rotation code reads it (0 as a dummy for unparseable markers; only
used where parsing is known to succeed). -/
def markerVal (n : String) : Int := (pyParseInt? (markerSeg n)).getD 0

/-- Read "a is at least as new as b" under the active naming scheme, as
the specification states it: lower integer marker under the sequential
scheme, lexicographically larger filename under the timestamp scheme. -/
def keepNewer (sequential : Bool) (a b : String) : Prop :=
  if sequential then markerVal a ≤ markerVal b else pyStrLe b a = true

/-- A sequential-scheme archive filename for a given stem, integer marker
and extension. -/
def seqArchiveName (stem : String) (m : Int) (ext : String) : String :=
  stem ++ "." ++ pyStrInt m ++ "." ++ ext

/-- A string of exactly `n` decimal digit characters. -/
def digitRun (s : String) (n : Nat) : Prop := s.length = n ∧ ∀ c ∈ s.data, c.isDigit = true

/-- The shape demanded by the specification regex for a compressed
timestamp-scheme archive name. -/
def timestampArchiveName (base s : String) : Prop :=
  ∃ y mo d h mi se f : String,
    digitRun y 4 ∧ digitRun mo 2 ∧ digitRun d 2 ∧ digitRun h 2 ∧ digitRun mi 2 ∧
      digitRun se 2 ∧ digitRun f 6 ∧
      s = base ++ "." ++ y ++ "-" ++ mo ++ "-" ++ d ++ "T" ++ h ++ "-" ++ mi ++ "-" ++ se ++ "-" ++ f ++ "Z.tgz"

/-! ### Digit characters and decimal renderings -/

theorem natDigitsAux_congr : ∀ n fuel₁ fuel₂, n < fuel₁ → n < fuel₂ →
    natDigitsAux fuel₁ n = natDigitsAux fuel₂ n := by
  intro n
  induction n using Nat.strong_induction_on with
  | _ n ih =>
    intro fuel₁ fuel₂ h1 h2
    cases fuel₁ with
    | zero => omega
    | succ f₁ =>
      cases fuel₂ with
      | zero => omega
      | succ f₂ =>
        unfold natDigitsAux
        by_cases hn : n < 10
        · rw [if_pos hn, if_pos hn]
        · rw [if_neg hn, if_neg hn]
          have hlt : n / 10 < n := Nat.div_lt_self (by omega) (by omega)
          rw [ih (n / 10) hlt f₁ f₂ (by omega) (by omega)]

theorem natDigits_eq (n : Nat) : natDigits n =
    if n < 10 then [digitChar n] else natDigits (n / 10) ++ [digitChar n] := by
  show natDigitsAux (n + 1) n = _
  unfold natDigitsAux
  by_cases hn : n < 10
  · rw [if_pos hn, if_pos hn]
  · rw [if_neg hn, if_neg hn]
    have hlt : n / 10 < n := Nat.div_lt_self (by omega) (by omega)
    rw [natDigitsAux_congr (n / 10) n (n / 10 + 1) hlt (by omega)]
    rfl

theorem isDigit_toNat {c : Char} (h : c.isDigit = true) : 48 ≤ c.toNat ∧ c.toNat ≤ 57 := by
  simp [Char.isDigit, Char.le_def] at h
  exact h

theorem isDigit_ne_of_toNat {c d : Char} (h : c.isDigit = true) (hd : d.toNat < 48 ∨ 57 < d.toNat) :
    c ≠ d := by
  intro he
  subst he
  have := isDigit_toNat h
  omega

theorem charVal_digitChar (n : Nat) : charVal (digitChar n) = n % 10 := by
  have h : n % 10 < 10 := Nat.mod_lt _ (by omega)
  unfold digitChar
  generalize n % 10 = k at *
  interval_cases k <;> decide

theorem digitChar_isDigit (n : Nat) : (digitChar n).isDigit = true := by
  have h : n % 10 < 10 := Nat.mod_lt _ (by omega)
  unfold digitChar
  generalize n % 10 = k at *
  interval_cases k <;> decide

theorem natDigits_ne_nil (n : Nat) : natDigits n ≠ [] := by
  rw [natDigits_eq]
  split <;> simp

theorem natDigits_all_digits (n : Nat) : ∀ c ∈ natDigits n, c.isDigit = true := by
  induction n using Nat.strong_induction_on with
  | _ n ih =>
    rw [natDigits_eq]
    split
    · intro c hc
      simp at hc
      subst hc
      exact digitChar_isDigit n
    · intro c hc
      rcases List.mem_append.mp hc with h | h
      · exact ih (n / 10) (Nat.div_lt_self (by omega) (by omega)) c h
      · simp at h
        subst h
        exact digitChar_isDigit n

theorem digitsVal_natDigits (n : Nat) : digitsVal (natDigits n) = n := by
  induction n using Nat.strong_induction_on with
  | _ n ih =>
    rw [natDigits_eq]
    split
    · simp [digitsVal, charVal_digitChar]
      omega
    · rw [show digitsVal (natDigits (n / 10) ++ [digitChar n]) =
          10 * digitsVal (natDigits (n / 10)) + charVal (digitChar n) from ?_]
      · rw [ih (n / 10) (Nat.div_lt_self (by omega) (by omega)), charVal_digitChar]
        omega
      · unfold digitsVal
        rw [List.foldl_append]
        simp

theorem pyStrNat_inj {a b : Nat} (h : pyStrNat a = pyStrNat b) : a = b := by
  unfold pyStrNat at h
  have hd : natDigits a = natDigits b := by
    have := congrArg String.data h
    simpa using this
  have := congrArg digitsVal hd
  rwa [digitsVal_natDigits, digitsVal_natDigits] at this

theorem pyStrInt_inj {a b : Int} (h : pyStrInt a = pyStrInt b) : a = b := by
  cases a with
  | ofNat a =>
    cases b with
    | ofNat b => exact congrArg Int.ofNat (pyStrNat_inj h)
    | negSucc b =>
      exfalso
      unfold pyStrInt pyStrNat at h
      have hd := congrArg String.data h
      rw [String.data_append] at hd
      simp only [String.data] at hd
      have hm : ('-' : Char) ∈ natDigits a := by
        rw [hd]
        simp [show ("-" : String).data = ['-'] from rfl]
      have := natDigits_all_digits a _ hm
      exact absurd this (by decide)
  | negSucc a =>
    cases b with
    | ofNat b =>
      exfalso
      unfold pyStrInt pyStrNat at h
      have hd := congrArg String.data h
      rw [String.data_append] at hd
      simp only [String.data] at hd
      have hm : ('-' : Char) ∈ natDigits b := by
        rw [← hd]
        simp [show ("-" : String).data = ['-'] from rfl]
      have := natDigits_all_digits b _ hm
      exact absurd this (by decide)
    | negSucc b =>
      unfold pyStrInt at h
      have hd := congrArg String.data h
      rw [String.data_append, String.data_append] at hd
      have hdata : (pyStrNat (a + 1)).data = (pyStrNat (b + 1)).data :=
        List.append_cancel_left hd
      have hstr : pyStrNat (a + 1) = pyStrNat (b + 1) := by
        have := congrArg String.mk hdata
        simpa using this
      have hab : a + 1 = b + 1 := pyStrNat_inj hstr
      have : a = b := by omega
      subst this
      rfl

theorem pyStrInt_no_dot (m : Int) : ∀ c ∈ (pyStrInt m).data, c ≠ '.' := by
  intro c hc
  cases m with
  | ofNat n =>
    unfold pyStrInt pyStrNat at hc
    simp only [String.data] at hc
    exact isDigit_ne_of_toNat (natDigits_all_digits n c hc) (by decide)
  | negSucc n =>
    unfold pyStrInt pyStrNat at hc
    rw [String.data_append] at hc
    rcases List.mem_append.mp hc with h | h
    · simp [show ("-" : String).data = ['-'] from rfl] at h
      subst h
      decide
    · simp only [String.data] at h
      exact isDigit_ne_of_toNat (natDigits_all_digits (n + 1) c h) (by decide)

/-! ### Round trip between rendering and Python int parsing -/

theorem isPySpace_eq_false_of_isDigit {c : Char} (h : c.isDigit = true) : isPySpace c = false := by
  have hb := isDigit_toNat h
  unfold isPySpace
  simp only [Bool.or_eq_false_iff, decide_eq_false_iff_not]
  refine ⟨⟨⟨⟨⟨?_, ?_⟩, ?_⟩, ?_⟩, ?_⟩, ?_⟩ <;>
    (intro he; subst he; revert hb; decide)

theorem isPySpace_dash : isPySpace '-' = false := by decide

theorem stripPySpace_eq_self {l : List Char} (h : ∀ c ∈ l, isPySpace c = false) :
    stripPySpace l = l := by
  unfold stripPySpace
  have h1 : l.dropWhile isPySpace = l := by
    rw [List.dropWhile_eq_self_iff]
    intro hl
    rw [h _ (List.get_mem l 0 hl)]
    simp
  rw [h1]
  have h2 : l.reverse.dropWhile isPySpace = l.reverse := by
    rw [List.dropWhile_eq_self_iff]
    intro hl
    rw [h _ (List.mem_reverse.mp (List.get_mem l.reverse 0 hl))]
    simp
  rw [h2, List.reverse_reverse]

theorem parseDigitsRest_digits (acc : Nat) (ds : List Char) (h : ∀ c ∈ ds, c.isDigit = true) :
    parseDigitsRest acc ds = some (ds.foldl (fun a c => 10 * a + charVal c) acc) := by
  induction ds generalizing acc with
  | nil => rfl
  | cons c rest ih =>
    have hc : c.isDigit = true := h c (by simp)
    have hne : ¬(c = '_') := by
      intro he
      subst he
      exact absurd hc (by decide)
    unfold parseDigitsRest
    rw [if_neg hne, if_pos hc]
    exact ih _ (fun d hd => h d (by simp [hd]))

theorem parseDigits_digits (ds : List Char) (hne : ds ≠ []) (h : ∀ c ∈ ds, c.isDigit = true) :
    parseDigits ds = some (digitsVal ds) := by
  cases ds with
  | nil => exact absurd rfl hne
  | cons c rest =>
    have hc : c.isDigit = true := h c (by simp)
    show (if c.isDigit = true then parseDigitsRest (charVal c) rest else none) =
      some (digitsVal (c :: rest))
    rw [if_pos hc, parseDigitsRest_digits _ _ (fun d hd => h d (by simp [hd]))]
    congr 1
    simp [digitsVal]

theorem pyParseInt?_pyStrNat (n : Nat) : pyParseInt? (pyStrNat n) = some (n : Int) := by
  unfold pyParseInt? pyStrNat
  simp only [String.data]
  rw [stripPySpace_eq_self (fun c hc =>
    isPySpace_eq_false_of_isDigit (natDigits_all_digits n c hc))]
  have hd := natDigits_all_digits n
  cases hds : natDigits n with
  | nil => exact absurd hds (natDigits_ne_nil n)
  | cons c rest =>
    have hc : c.isDigit = true := by
      apply hd
      rw [hds]
      simp
    have hplus : c ≠ '+' := isDigit_ne_of_toNat hc (by decide)
    have hminus : c ≠ '-' := isDigit_ne_of_toNat hc (by decide)
    have hparse : parseDigits (c :: rest) = some (digitsVal (c :: rest)) := by
      apply parseDigits_digits _ (by simp)
      intro d hdm
      apply hd
      rw [hds]
      exact hdm
    have hval : digitsVal (c :: rest) = n := by
      rw [← hds]
      exact digitsVal_natDigits n
    split
    · rename_i rest2 heq
      injection heq with h1 h2
      exact absurd h1 hplus
    · rename_i rest2 heq
      injection heq with h1 h2
      exact absurd h1 hminus
    · rw [hparse, hval]
      rfl

theorem pyParseInt?_pyStrInt (m : Int) : pyParseInt? (pyStrInt m) = some m := by
  cases m with
  | ofNat n => exact pyParseInt?_pyStrNat n
  | negSucc n =>
    unfold pyParseInt? pyStrInt pyStrNat
    rw [show (("-" : String) ++ String.mk (natDigits (n + 1))).data =
        '-' :: natDigits (n + 1) from by rw [String.data_append]; rfl]
    rw [stripPySpace_eq_self ?_]
    · have hparse : parseDigits (natDigits (n + 1)) = some (digitsVal (natDigits (n + 1))) :=
        parseDigits_digits _ (natDigits_ne_nil _) (natDigits_all_digits _)
      split
      · rename_i rest2 heq
        injection heq with h1 h2
        exact absurd h1 (by decide)
      · rename_i rest2 heq
        injection heq with h1 h2
        subst h2
        rw [hparse, digitsVal_natDigits]
        simp [Int.negSucc_eq]
      · rename_i hplus2 hnot
        exact (hnot (natDigits (n + 1)) rfl).elim
    · intro c hc
      rcases List.mem_cons.mp hc with h | h
      · subst h
        decide
      · exact isPySpace_eq_false_of_isDigit (natDigits_all_digits _ c h)

/-! ### Splitting and rejoining filenames on dots -/

theorem splitOnChar_ne_nil (sep : Char) (cs : List Char) : splitOnChar sep cs ≠ [] := by
  cases cs with
  | nil => simp [splitOnChar]
  | cons c rest =>
    unfold splitOnChar
    split
    · simp
    · split <;> simp

theorem splitOnChar_no_sep {sep : Char} {cs : List Char} (h : ∀ c ∈ cs, c ≠ sep) :
    splitOnChar sep cs = [cs] := by
  induction cs with
  | nil => rfl
  | cons c rest ih =>
    unfold splitOnChar
    rw [if_neg (h c (by simp)), ih (fun d hd => h d (by simp [hd]))]

theorem joinChar_cons_of_ne_nil (sep : Char) (p : List Char) {ps : List (List Char)}
    (h : ps ≠ []) : joinChar sep (p :: ps) = p ++ sep :: joinChar sep ps := by
  obtain ⟨q, qs, rfl⟩ := List.exists_cons_of_ne_nil h
  rfl

theorem joinChar_splitOnChar (sep : Char) (cs : List Char) :
    joinChar sep (splitOnChar sep cs) = cs := by
  induction cs with
  | nil => rfl
  | cons c rest ih =>
    unfold splitOnChar
    split
    · rename_i h
      subst h
      rw [joinChar_cons_of_ne_nil c [] (splitOnChar_ne_nil c rest), ih]
      rfl
    · rename_i h
      cases hsp : splitOnChar sep rest with
      | nil => exact absurd hsp (splitOnChar_ne_nil sep rest)
      | cons p ps =>
        rw [hsp] at ih
        cases ps with
        | nil =>
          have hpr : p = rest := ih
          rw [show joinChar sep [c :: p] = c :: p from rfl, hpr]
        | cons q qs =>
          rw [joinChar_cons_of_ne_nil sep (c :: p) (by simp)]
          rw [joinChar_cons_of_ne_nil sep p (by simp)] at ih
          rw [List.cons_append, ih]

theorem splitOnChar_cons (sep c : Char) (rest : List Char) :
    splitOnChar sep (c :: rest) =
      if c = sep then [] :: splitOnChar sep rest
      else
        match splitOnChar sep rest with
        | [] => [[c]]
        | p :: ps => (c :: p) :: ps := rfl

theorem splitOnChar_append_no_sep {sep : Char} {bs : List Char} (cs : List Char)
    (hb : ∀ c ∈ bs, c ≠ sep) :
    splitOnChar sep (bs ++ sep :: cs) = bs :: splitOnChar sep cs := by
  induction bs with
  | nil =>
    rw [List.nil_append, splitOnChar_cons, if_pos rfl]
  | cons b bs ih =>
    rw [List.cons_append, splitOnChar_cons,
      if_neg (hb b (by simp)), ih (fun d hd => hb d (by simp [hd]))]

theorem splitOnChar_two {sep : Char} (as : List Char) {bs cs : List Char}
    (hb : ∀ c ∈ bs, c ≠ sep) (hc : ∀ c ∈ cs, c ≠ sep) :
    splitOnChar sep (as ++ sep :: (bs ++ sep :: cs)) = splitOnChar sep as ++ [bs, cs] := by
  induction as with
  | nil =>
    rw [List.nil_append, splitOnChar_cons, if_pos rfl,
      splitOnChar_append_no_sep cs hb, splitOnChar_no_sep hc]
    rfl
  | cons a as ih =>
    rw [List.cons_append, splitOnChar_cons, splitOnChar_cons]
    by_cases ha : a = sep
    · rw [if_pos ha, if_pos ha, ih, List.cons_append]
    · rw [if_neg ha, if_neg ha, ih]
      cases hsp : splitOnChar sep as with
      | nil => exact absurd hsp (splitOnChar_ne_nil sep as)
      | cons p ps => rfl

theorem rsplit2Chars_concat {as bs cs : List Char}
    (hb : ∀ c ∈ bs, c ≠ '.') (hc : ∀ c ∈ cs, c ≠ '.') :
    rsplit2Chars (as ++ '.' :: (bs ++ '.' :: cs)) = [as, bs, cs] := by
  unfold rsplit2Chars
  rw [splitOnChar_two as hb hc]
  cases hsp : splitOnChar '.' as with
  | nil => exact absurd hsp (splitOnChar_ne_nil _ _)
  | cons q qs =>
    have hjoin := joinChar_splitOnChar '.' as
    rw [hsp] at hjoin
    cases qs with
    | nil =>
      rw [if_pos (by simp)]
      have hq : q = as := hjoin
      rw [hq]
      rfl
    | cons q2 qs2 =>
      rw [if_neg (by simp)]
      have hlen : (q :: q2 :: qs2 ++ [bs, cs]).length - 2 = (q :: q2 :: qs2).length := by
        simp
      rw [hlen, List.take_left, List.drop_left, hjoin]

theorem rsplitDot2_concat (a b c : String)
    (hb : ∀ ch ∈ b.data, ch ≠ '.') (hc : ∀ ch ∈ c.data, ch ≠ '.') :
    rsplitDot2 (a ++ "." ++ b ++ "." ++ c) = [a, b, c] := by
  unfold rsplitDot2
  have hd : (a ++ "." ++ b ++ "." ++ c).data = a.data ++ '.' :: (b.data ++ '.' :: c.data) := by
    simp only [String.data_append, show ("." : String).data = ['.'] from rfl,
      List.append_assoc, List.cons_append, List.nil_append]
  rw [hd, rsplit2Chars_concat hb hc]
  rfl

theorem markerSeg_concat (a b c : String)
    (hb : ∀ ch ∈ b.data, ch ≠ '.') (hc : ∀ ch ∈ c.data, ch ≠ '.') :
    markerSeg (a ++ "." ++ b ++ "." ++ c) = b := by
  unfold markerSeg
  rw [rsplitDot2_concat a b c hb hc]
  rfl

/-! ### Glob matching -/

theorem globMatch_concat (stem mid ext : String) :
    globMatch stem ext (stem ++ "." ++ mid ++ "." ++ ext) = true := by
  unfold globMatch
  have hd : (stem ++ "." ++ mid ++ "." ++ ext).data =
      (stem.data ++ ['.']) ++ (mid.data ++ ('.' :: ext.data)) := by
    simp only [String.data_append, show ("." : String).data = ['.'] from rfl,
      List.append_assoc, List.cons_append, List.nil_append]
  rw [hd, Bool.and_eq_true, Bool.and_eq_true]
  refine ⟨⟨?_, ?_⟩, ?_⟩
  · rw [List.isPrefixOf_iff_prefix]
    exact List.prefix_append _ _
  · rw [List.isSuffixOf_iff_suffix]
    rw [show (stem.data ++ ['.']) ++ (mid.data ++ ('.' :: ext.data)) =
        ((stem.data ++ ['.']) ++ mid.data) ++ ('.' :: ext.data) from by
      simp [List.append_assoc]]
    exact List.suffix_append _ _
  · simp only [decide_eq_true_eq, List.length_append, List.length_cons]
    omega

/-! ### The code-point lexicographic order is a linear order -/

theorem charLt_iff_toNat (a b : Char) : a < b ↔ a.toNat < b.toNat := by
  rw [Char.lt_def]
  rfl

theorem char_eq_of_not_lt {a b : Char} (h1 : ¬a < b) (h2 : ¬b < a) : a = b := by
  rw [charLt_iff_toNat] at h1 h2
  unfold Char.toNat at h1 h2
  exact Char.ext (UInt32.ext (by omega))

theorem lexLt_irrefl (a : List Char) : lexLt a a = false := by
  induction a with
  | nil => rfl
  | cons c rest ih =>
    unfold lexLt
    rw [if_neg (lt_irrefl c), if_neg (lt_irrefl c)]
    exact ih

theorem lexLt_trans {a b c : List Char} (h1 : lexLt a b = true) (h2 : lexLt b c = true) :
    lexLt a c = true := by
  induction a generalizing b c with
  | nil =>
    cases c with
    | nil =>
      cases b with
      | nil => exact absurd h2 (by simp [lexLt])
      | cons y ys => exact absurd h2 (by simp [lexLt])
    | cons z zs => rfl
  | cons x xs ih =>
    cases b with
    | nil => exact absurd h1 (by simp [lexLt])
    | cons y ys =>
      cases c with
      | nil => exact absurd h2 (by simp [lexLt])
      | cons z zs =>
        unfold lexLt at h1 h2 ⊢
        by_cases hxy : x < y
        · by_cases hyz : y < z
          · rw [if_pos (lt_trans hxy hyz)]
          · by_cases hzy : z < y
            · exact absurd h2 (by rw [if_neg hyz, if_pos hzy]; simp)
            · have : y = z := char_eq_of_not_lt hyz hzy
              subst this
              rw [if_pos hxy]
        · by_cases hyx : y < x
          · exact absurd h1 (by rw [if_neg hxy, if_pos hyx]; simp)
          · have hxyeq : x = y := char_eq_of_not_lt hxy hyx
            subst hxyeq
            rw [if_neg hxy, if_neg hyx] at h1
            by_cases hyz : x < z
            · rw [if_pos hyz]
            · by_cases hzy : z < x
              · exact absurd h2 (by rw [if_neg hyz, if_pos hzy]; simp)
              · have : x = z := char_eq_of_not_lt hyz hzy
                subst this
                rw [if_neg hxy, if_neg hxy] at h2 ⊢
                exact ih h1 h2

theorem lexLt_trichotomy (a b : List Char) : lexLt a b = true ∨ a = b ∨ lexLt b a = true := by
  induction a generalizing b with
  | nil =>
    cases b with
    | nil => exact Or.inr (Or.inl rfl)
    | cons y ys => exact Or.inl rfl
  | cons x xs ih =>
    cases b with
    | nil => exact Or.inr (Or.inr rfl)
    | cons y ys =>
      by_cases hxy : x < y
      · exact Or.inl (by unfold lexLt; rw [if_pos hxy])
      · by_cases hyx : y < x
        · exact Or.inr (Or.inr (by unfold lexLt; rw [if_pos hyx]))
        · have heq : x = y := char_eq_of_not_lt hxy hyx
          subst heq
          rcases ih ys with h | h | h
          · exact Or.inl (by unfold lexLt; rw [if_neg hxy, if_neg hxy]; exact h)
          · exact Or.inr (Or.inl (by rw [h]))
          · exact Or.inr (Or.inr (by unfold lexLt; rw [if_neg hxy, if_neg hxy]; exact h))

theorem pyStrLe_total (a b : String) : pyStrLe a b = true ∨ pyStrLe b a = true := by
  unfold pyStrLe
  by_cases h1 : lexLt b.data a.data = true
  · by_cases h2 : lexLt a.data b.data = true
    · have := lexLt_trans h1 h2
      rw [lexLt_irrefl] at this
      exact absurd this (by simp)
    · right
      simp [h2]
  · left
    simp [h1]

theorem pyStrLe_trans {a b c : String} (h1 : pyStrLe a b = true) (h2 : pyStrLe b c = true) :
    pyStrLe a c = true := by
  unfold pyStrLe at h1 h2 ⊢
  simp only [Bool.not_eq_true', Bool.not_eq_true] at h1 h2
  simp only [Bool.not_eq_true']
  by_contra hca
  simp only [Bool.not_eq_false] at hca
  rcases lexLt_trichotomy c.data b.data with h | h | h
  · rw [h] at h2
    exact absurd h2 (by simp)
  · rw [h] at hca
    rw [h1] at hca
    exact absurd hca (by simp)
  · have hba := lexLt_trans h hca
    rw [h1] at hba
    exact absurd hba (by simp)

/-! ### Marker parsing over a list of matching archives -/

theorem markerItems_ok {l : List String} (h : ∀ n ∈ l, (pyParseInt? (markerSeg n)).isSome = true) :
    markerItems l = .ok (l.map (fun n => (markerVal n, n))) := by
  induction l with
  | nil => rfl
  | cons item rest ih =>
    unfold markerItems
    cases hp : pyParseInt? (markerSeg item) with
    | none =>
      have := h item (by simp)
      rw [hp] at this
      exact absurd this (by simp)
    | some m =>
      rw [ih (fun n hn => h n (by simp [hn]))]
      have : markerVal item = m := by
        unfold markerVal
        rw [hp]
        rfl
      simp [Except.map, this]

theorem markerItems_error {l : List String} {x : String} (hx : x ∈ l)
    (hbad : pyParseInt? (markerSeg x) = none) :
    ∃ bad ∈ l, pyParseInt? (markerSeg bad) = none ∧
      markerItems l = .error (.valueError (markerSeg bad)) := by
  induction l with
  | nil => exact absurd hx (by simp)
  | cons item rest ih =>
    unfold markerItems
    cases hp : pyParseInt? (markerSeg item) with
    | none => exact ⟨item, by simp, hp, rfl⟩
    | some m =>
      have hxr : x ∈ rest := by
        rcases List.mem_cons.mp hx with h | h
        · subst h
          rw [hp] at hbad
          exact absurd hbad (by simp)
        · exact h
      obtain ⟨bad, hmem, hbadp, heq⟩ := ih hxr
      refine ⟨bad, by simp [hmem], hbadp, ?_⟩
      rw [heq]
      rfl

/-! ### The deletion loop and erasure folds -/

theorem deleteLoop_ok (u files : List String) {l : List String} (h : ∀ y ∈ l, y ∉ u) :
    deleteLoop u files l = .ok (l.foldl List.erase files) := by
  induction l generalizing files with
  | nil => rfl
  | cons item rest ih =>
    unfold deleteLoop
    rw [if_neg (h item (by simp))]
    exact ih _ (fun y hy => h y (by simp [hy]))

theorem mem_foldl_erase {files : List String} (hnd : files.Nodup) (l : List String) (y : String) :
    y ∈ l.foldl List.erase files ↔ y ∈ files ∧ y ∉ l := by
  induction l generalizing files with
  | nil => simp
  | cons d l ih =>
    rw [List.foldl_cons, ih (hnd.erase d), hnd.mem_erase_iff]
    simp only [List.mem_cons]
    constructor
    · rintro ⟨⟨hne, hmem⟩, hnl⟩
      exact ⟨hmem, by rintro (h | h) <;> [exact hne h; exact hnl h]⟩
    · rintro ⟨hmem, hn⟩
      exact ⟨⟨fun h => hn (Or.inl h), hmem⟩, fun h => hn (Or.inr h)⟩

theorem nodup_foldl_erase {files : List String} (hnd : files.Nodup) (l : List String) :
    (l.foldl List.erase files).Nodup := by
  induction l generalizing files with
  | nil => exact hnd
  | cons d l ih => exact ih (hnd.erase d)

/-! ### Fixed-width digit rendering -/

theorem padDigits_length (w n : Nat) : (padDigits w n).length = w := by
  induction w generalizing n with
  | zero => rfl
  | succ w ih => simp [padDigits, ih]

theorem padDigits_all_digits (w n : Nat) : ∀ c ∈ padDigits w n, c.isDigit = true := by
  induction w generalizing n with
  | zero => simp [padDigits]
  | succ w ih =>
    intro c hc
    unfold padDigits at hc
    rcases List.mem_append.mp hc with h | h
    · exact ih _ c h
    · simp at h
      subst h
      exact digitChar_isDigit n

/-! ### Core of the retention argument: erasing everything past a sorted prefix -/

theorem retention_core (p : String → Bool) (rel : String → String → Prop)
    {files ordered : List String}
    (hnd : files.Nodup)
    (hperm : ordered.Perm (files.filter p))
    (hpair : ordered.Pairwise rel)
    {k : Nat} (hk : k < ordered.length) :
    (((ordered.drop k).foldl List.erase files).filter p).length = k ∧
    (∀ a ∈ ((ordered.drop k).foldl List.erase files).filter p, a ∈ files.filter p) ∧
    (∀ a ∈ ((ordered.drop k).foldl List.erase files).filter p,
      ∀ b ∈ files.filter p, b ∉ ((ordered.drop k).foldl List.erase files).filter p → rel a b) := by
  have hndA : (files.filter p).Nodup := hnd.filter p
  have hndOrd : ordered.Nodup := hndA.perm hperm.symm
  have hndKept : (ordered.take k).Nodup := hndOrd.sublist (List.take_sublist k ordered)
  have hnd' : (((ordered.drop k).foldl List.erase files)).Nodup := nodup_foldl_erase hnd _
  have hdisj : (ordered.take k).Disjoint (ordered.drop k) :=
    List.disjoint_take_drop hndOrd (le_refl k)
  have hmemchar : ∀ y, y ∈ ((ordered.drop k).foldl List.erase files).filter p ↔
      y ∈ ordered.take k := by
    intro y
    rw [List.mem_filter, mem_foldl_erase hnd]
    constructor
    · rintro ⟨⟨hyf, hynd⟩, hyp⟩
      have hyA : y ∈ files.filter p := List.mem_filter.mpr ⟨hyf, hyp⟩
      have hyord : y ∈ ordered := hperm.mem_iff.mpr hyA
      rw [← List.take_append_drop k ordered, List.mem_append] at hyord
      rcases hyord with h | h
      · exact h
      · exact absurd h hynd
    · intro hy
      have hyord : y ∈ ordered := List.mem_of_mem_take hy
      have hyA : y ∈ files.filter p := hperm.mem_iff.mp hyord
      rw [List.mem_filter] at hyA
      exact ⟨⟨hyA.1, fun hd => hdisj hy hd⟩, hyA.2⟩
  refine ⟨?_, ?_, ?_⟩
  · have hpermKept : (((ordered.drop k).foldl List.erase files).filter p).Perm
        (ordered.take k) := by
      rw [List.perm_ext_iff_of_nodup (hnd'.filter p) hndKept]
      exact hmemchar
    rw [hpermKept.length_eq, List.length_take]
    omega
  · intro a ha
    have := (hmemchar a).mp ha
    exact hperm.mem_iff.mp (List.mem_of_mem_take this)
  · intro a ha b hb hbn
    have hak : a ∈ ordered.take k := (hmemchar a).mp ha
    have hbord : b ∈ ordered := hperm.mem_iff.mpr hb
    have hbd : b ∈ ordered.drop k := by
      rw [← List.take_append_drop k ordered, List.mem_append] at hbord
      rcases hbord with h | h
      · exact absurd ((hmemchar b).mpr h) hbn
      · exact h
    have hpw := hpair
    rw [← List.take_append_drop k ordered] at hpw
    exact (List.pairwise_append.mp hpw).2.2 a hak b hbd

/-! ### Branch normal forms of the retention and rotation engines -/

theorem remove_eq_seq (u : List String) (kw : Kwargs) (files : List String) (archive : PyPath)
    (hK : 0 < kw.retention_count)
    (hM : kw.retention_count < ((gather_matching_archives files archive).2.length : Int))
    (hseq : kw.sequential = true)
    (hparse : ∀ n ∈ (gather_matching_archives files archive).2,
      (pyParseInt? (markerSeg n)).isSome = true) :
    remove_previous_archives u kw files archive =
      deleteLoop u files
        (((List.insertionSort (fun a b => a.1 ≤ b.1)
            ((gather_matching_archives files archive).2.map (fun n => (markerVal n, n)))).map
          (fun i => i.2)).drop kw.retention_count.toNat) := by
  simp only [remove_previous_archives]
  rw [if_neg (by omega), if_neg (by omega), hseq, if_pos rfl, markerItems_ok hparse]

theorem remove_eq_ts (u : List String) (kw : Kwargs) (files : List String) (archive : PyPath)
    (hK : 0 < kw.retention_count)
    (hM : kw.retention_count < ((gather_matching_archives files archive).2.length : Int))
    (hseq : kw.sequential = false) :
    remove_previous_archives u kw files archive =
      deleteLoop u files
        ((List.insertionSort (fun a b => pyStrLe b a = true)
          (gather_matching_archives files archive).2).drop kw.retention_count.toNat) := by
  simp only [remove_previous_archives]
  rw [if_neg (by omega), if_neg (by omega), hseq]
  rfl

theorem move_eq_seq (kw : Kwargs) (files : List String) (archive : PyPath)
    (hseq : kw.sequential = true)
    (hne : (gather_matching_archives files archive).2 ≠ [])
    (hparse : ∀ n ∈ (gather_matching_archives files archive).2,
      (pyParseInt? (markerSeg n)).isSome = true) :
    move_previous_archives kw files archive =
      .ok (renameAll files
            ((((List.insertionSort (fun a b => b.1 ≤ a.1)
                ((gather_matching_archives files archive).2.map (fun n => (markerVal n, n)))).map
              (fun i => i.2)).map (fun item => (item, incrementName item)))),
          (((List.insertionSort (fun a b => b.1 ≤ a.1)
              ((gather_matching_archives files archive).2.map (fun n => (markerVal n, n)))).map
            (fun i => i.2)).map (fun item => (item, incrementName item)))) := by
  simp only [move_previous_archives]
  rw [hseq]
  rw [if_neg (by simp), if_neg (by rw [List.isEmpty_iff]; exact hne), markerItems_ok hparse]

/-- C2: for every run with retention count K > 0 and M matching archives
present after archive creation, with M > K, the retention engine deletes
archives so that exactly K matching archives remain, and the kept K are
the newest under the active scheme: in the sequential scheme those with
the lowest integer markers (ascending integer sort of the marker
segment), in the timestamp scheme the lexicographically largest full
filenames (descending filename sort). -/
theorem retention_keeps_newest (kw : Kwargs) (files : List String) (archive : PyPath)
    (hnd : files.Nodup)
    (hK : 0 < kw.retention_count)
    (hM : kw.retention_count < ((gather_matching_archives files archive).2.length : Int))
    (hparse : kw.sequential = true →
      ∀ n ∈ (gather_matching_archives files archive).2,
        (pyParseInt? (markerSeg n)).isSome = true) :
    ∃ files₂, remove_previous_archives [] kw files archive = .ok files₂ ∧
      ((gather_matching_archives files₂ archive).2.length : Int) = kw.retention_count ∧
      (∀ a ∈ (gather_matching_archives files₂ archive).2,
        a ∈ (gather_matching_archives files archive).2) ∧
      (∀ a ∈ (gather_matching_archives files₂ archive).2,
        ∀ b ∈ (gather_matching_archives files archive).2,
          b ∉ (gather_matching_archives files₂ archive).2 →
            keepNewer kw.sequential a b) := by
  have hg : ∀ fs : List String, (gather_matching_archives fs archive).2 =
      fs.filter (fun n => globMatch ((rsplitDot2 archive.name).headD "")
        ((rsplitDot2 archive.name).getLastD "") n) := fun _ => rfl
  cases hseq : kw.sequential with
  | true =>
    have hrem := remove_eq_seq [] kw files archive hK hM hseq (hparse hseq)
    letI : IsTotal (Int × String) (fun a b => a.1 ≤ b.1) := ⟨fun a b => Int.le_total a.1 b.1⟩
    letI : IsTrans (Int × String) (fun a b => a.1 ≤ b.1) :=
      ⟨fun a b c hab hbc => le_trans hab hbc⟩
    have hsorted := List.sorted_insertionSort (fun (a b : Int × String) => a.1 ≤ b.1)
      ((gather_matching_archives files archive).2.map (fun n => (markerVal n, n)))
    have hpermS := List.perm_insertionSort (fun (a b : Int × String) => a.1 ≤ b.1)
      ((gather_matching_archives files archive).2.map (fun n => (markerVal n, n)))
    have hperm : ((List.insertionSort (fun (a b : Int × String) => a.1 ≤ b.1)
        ((gather_matching_archives files archive).2.map (fun n => (markerVal n, n)))).map
          (fun i => i.2)).Perm
        (files.filter (fun n => globMatch ((rsplitDot2 archive.name).headD "")
          ((rsplitDot2 archive.name).getLastD "") n)) := by
      have h1 := hpermS.map (fun i : Int × String => i.2)
      rw [List.map_map] at h1
      rw [← hg files]
      have h2 : List.map ((fun i : Int × String => i.2) ∘ fun n => (markerVal n, n))
          (gather_matching_archives files archive).2 =
          (gather_matching_archives files archive).2 := List.map_id' _
      rw [h2] at h1
      exact h1
    have hpt : ∀ x ∈ List.insertionSort (fun (a b : Int × String) => a.1 ≤ b.1)
        ((gather_matching_archives files archive).2.map (fun n => (markerVal n, n))),
        x.1 = markerVal x.2 := by
      intro x hx
      have hxm := hpermS.mem_iff.mp hx
      obtain ⟨n, hn, rfl⟩ := List.mem_map.mp hxm
      rfl
    have hpair : ((List.insertionSort (fun (a b : Int × String) => a.1 ≤ b.1)
        ((gather_matching_archives files archive).2.map (fun n => (markerVal n, n)))).map
          (fun i => i.2)).Pairwise (fun a b => markerVal a ≤ markerVal b) := by
      rw [List.pairwise_map]
      exact hsorted.imp_of_mem (fun {a b} ha hb hr => by
        rw [← hpt a ha, ← hpt b hb]
        exact hr)
    have hk : kw.retention_count.toNat <
        ((List.insertionSort (fun (a b : Int × String) => a.1 ≤ b.1)
          ((gather_matching_archives files archive).2.map (fun n => (markerVal n, n)))).map
            (fun i => i.2)).length := by
      rw [hperm.length_eq, ← hg files]
      omega
    obtain ⟨hlen, hsub, hdom⟩ := retention_core
      (fun n => globMatch ((rsplitDot2 archive.name).headD "")
        ((rsplitDot2 archive.name).getLastD "") n)
      (fun a b => markerVal a ≤ markerVal b) hnd hperm hpair hk
    refine ⟨_, by rw [hrem, deleteLoop_ok [] files (by simp)], ?_, ?_, ?_⟩
    · rw [hg, hlen]
      omega
    · intro a ha
      rw [hg] at ha ⊢
      exact hsub a ha
    · intro a ha b hb hbn
      rw [hg] at ha hb hbn
      have := hdom a ha b hb hbn
      simpa [keepNewer] using this
  | false =>
    have hrem := remove_eq_ts [] kw files archive hK hM hseq
    letI : IsTotal String (fun a b => pyStrLe b a = true) :=
      ⟨fun a b => (pyStrLe_total b a).elim Or.inl Or.inr⟩
    letI : IsTrans String (fun a b => pyStrLe b a = true) :=
      ⟨fun a b c hab hbc => pyStrLe_trans hbc hab⟩
    have hsorted := List.sorted_insertionSort (fun (a b : String) => pyStrLe b a = true)
      (gather_matching_archives files archive).2
    have hpermS := List.perm_insertionSort (fun (a b : String) => pyStrLe b a = true)
      (gather_matching_archives files archive).2
    have hperm : (List.insertionSort (fun (a b : String) => pyStrLe b a = true)
        (gather_matching_archives files archive).2).Perm
        (files.filter (fun n => globMatch ((rsplitDot2 archive.name).headD "")
          ((rsplitDot2 archive.name).getLastD "") n)) := by
      rw [← hg files]
      exact hpermS
    have hk : kw.retention_count.toNat <
        (List.insertionSort (fun (a b : String) => pyStrLe b a = true)
          (gather_matching_archives files archive).2).length := by
      rw [hpermS.length_eq]
      omega
    obtain ⟨hlen, hsub, hdom⟩ := retention_core
      (fun n => globMatch ((rsplitDot2 archive.name).headD "")
        ((rsplitDot2 archive.name).getLastD "") n)
      (fun a b => pyStrLe b a = true) hnd hperm hsorted hk
    refine ⟨_, by rw [hrem, deleteLoop_ok [] files (by simp)], ?_, ?_, ?_⟩
    · rw [hg, hlen]
      omega
    · intro a ha
      rw [hg] at ha ⊢
      exact hsub a ha
    · intro a ha b hb hbn
      rw [hg] at ha hb hbn
      have := hdom a ha b hb hbn
      simpa [keepNewer] using this

/-- Witness for `retention_keeps_newest`: a concrete sequential run with
three matching archives and retention count two. -/
theorem retention_keeps_newest_witness :
    ∃ files₂, remove_previous_archives []
        { source := "/tmp/test.txt", sequential := true, retention_count := 2 }
        ["test.txt.1.tgz", "test.txt.2.tgz", "test.txt.3.tgz"]
        { parent := "/tmp", name := "test.txt.1.tgz" } = .ok files₂ ∧
      ((gather_matching_archives files₂
          { parent := "/tmp", name := "test.txt.1.tgz" }).2.length : Int) = (2 : Int) ∧
      (∀ a ∈ (gather_matching_archives files₂
          { parent := "/tmp", name := "test.txt.1.tgz" }).2,
        a ∈ (gather_matching_archives ["test.txt.1.tgz", "test.txt.2.tgz", "test.txt.3.tgz"]
          { parent := "/tmp", name := "test.txt.1.tgz" }).2) ∧
      (∀ a ∈ (gather_matching_archives files₂
          { parent := "/tmp", name := "test.txt.1.tgz" }).2,
        ∀ b ∈ (gather_matching_archives ["test.txt.1.tgz", "test.txt.2.tgz", "test.txt.3.tgz"]
          { parent := "/tmp", name := "test.txt.1.tgz" }).2,
          b ∉ (gather_matching_archives files₂
            { parent := "/tmp", name := "test.txt.1.tgz" }).2 →
            keepNewer true a b) :=
  retention_keeps_newest _ _ _ (by decide) (by decide) (by decide) (by decide)

/-- Two strings with the same character data are equal. -/
theorem stringDataEq {a b : String} (h : a.data = b.data) : a = b := by
  cases a
  cases b
  exact congrArg String.mk h

/-- C7: for every run with retention count zero or negative, retention
enforcement is a no-op: the destination listing is returned unchanged and
no archive is deleted, regardless of how many matching archives exist. -/
theorem retention_nonpositive_noop (unlinkFails : List String) (kw : Kwargs)
    (files : List String) (archive : PyPath) (hK : kw.retention_count ≤ 0) :
    remove_previous_archives unlinkFails kw files archive = .ok files := by
  simp only [remove_previous_archives]
  rw [if_pos hK]

/-- Witness for `retention_nonpositive_noop`: retention count zero with
twenty matching archives deletes nothing. -/
theorem retention_nonpositive_noop_witness :
    remove_previous_archives [] { source := "/s", retention_count := 0 }
      ["a.1.tgz", "a.2.tgz", "a.3.tgz", "a.4.tgz", "a.5.tgz", "a.6.tgz", "a.7.tgz",
       "a.8.tgz", "a.9.tgz", "a.10.tgz", "a.11.tgz", "a.12.tgz", "a.13.tgz", "a.14.tgz",
       "a.15.tgz", "a.16.tgz", "a.17.tgz", "a.18.tgz", "a.19.tgz", "a.20.tgz"]
      { parent := "/d", name := "a.1.tgz" } =
      .ok ["a.1.tgz", "a.2.tgz", "a.3.tgz", "a.4.tgz", "a.5.tgz", "a.6.tgz", "a.7.tgz",
       "a.8.tgz", "a.9.tgz", "a.10.tgz", "a.11.tgz", "a.12.tgz", "a.13.tgz", "a.14.tgz",
       "a.15.tgz", "a.16.tgz", "a.17.tgz", "a.18.tgz", "a.19.tgz", "a.20.tgz"] :=
  retention_nonpositive_noop _ _ _ _ (by decide)

/-- C5: for every invocation in which the destination keyword is not
supplied at all, the resolved destination directory is the source parent
directory, and the computed archive path is
`<source-parent>/<source-basename>.<marker>.<ext>`. -/
theorem default_destination_parent (kw : Kwargs) (source : PyPath) (now : UtcTime)
    (hdest : kw.destination = none) :
    ∃ archive, resolve_destination kw source now = .ok archive ∧
      archive.parent = source.parent ∧
      archive.str = source.parent ++ "/" ++ source.name ++ "." ++
        (if kw.sequential then pyStrInt 1 else strftimeMarker now) ++ "." ++
        (if kw.uncompressed then "tar" else "tgz") := by
  refine ⟨{ parent := source.parent,
            name := source.name ++ "." ++
              (if kw.sequential then pyStrInt 1 else strftimeMarker now) ++ "." ++
              (if kw.uncompressed then "tar" else "tgz") }, ?_, rfl, ?_⟩
  · simp only [resolve_destination]
    rw [hdest]
  · simp [PyPath.str, String.append_assoc]

/-- Witness for `default_destination_parent` at a concrete source path and
time, with default flags. -/
theorem default_destination_parent_witness :
    ∃ archive, resolve_destination { source := "/tmp/test.txt" }
        { parent := "/tmp", name := "test.txt" }
        ⟨2024, 11, 3, 9, 43, 23, 1234⟩ = .ok archive ∧
      archive.parent = "/tmp" ∧
      archive.str = "/tmp" ++ "/" ++ "test.txt" ++ "." ++
        strftimeMarker ⟨2024, 11, 3, 9, 43, 23, 1234⟩ ++ "." ++ "tgz" :=
  default_destination_parent _ _ _ (by decide)

/-- C8: for every invocation whose source path does not exist, the run
fails with a not-found error before any filesystem mutation: the
filesystem state carried by the error is the input state, so no archive
was created, renamed or deleted. -/
theorem missing_source_fails_before_mutation (unlinkFails : List String) (fs : FS)
    (now : UtcTime) (kw : Kwargs) (hsrc : kw.source ∉ fs.sources) :
    backerUpperCall unlinkFails fs now kw = .error (.fileNotFoundError kw.source, fs) := by
  simp only [backerUpperCall, resolve_source]
  rw [if_neg hsrc]

/-- Witness for `missing_source_fails_before_mutation` at a concrete
missing source. -/
theorem missing_source_fails_before_mutation_witness :
    backerUpperCall [] { sources := ["/tmp/other"], destFiles := ["x.1.tgz"] }
      { year := 2024, month := 11, day := 3, hour := 9, minute := 43, second := 23,
        microsecond := 0 }
      { source := "/tmp/test.txt" } =
      .error (.fileNotFoundError "/tmp/test.txt",
        { sources := ["/tmp/other"], destFiles := ["x.1.tgz"] }) :=
  missing_source_fails_before_mutation _ _ _ _ (by decide)

/-- C10: for every invocation in which the destination keyword argument is
present but bound to Python None — which is what the CLI passes whenever
`--to` is omitted — `resolve_destination` raises `TypeError` instead of
falling back to the source parent, and the run creates no archive: the
filesystem state carried by the error is the input state. -/
theorem destination_none_typeerror (unlinkFails : List String) (fs : FS) (now : UtcTime)
    (kw : Kwargs) (hsrc : kw.source ∈ fs.sources) (hdest : kw.destination = some none) :
    ∃ msg, resolve_destination kw (pathOfString kw.source) now = .error (.typeError msg) ∧
      backerUpperCall unlinkFails fs now kw = .error (.typeError msg, fs) := by
  refine ⟨"argument should be a str or os.PathLike object, not NoneType", ?_, ?_⟩
  · simp only [resolve_destination]
    rw [hdest]
  · simp only [backerUpperCall, resolve_source, resolve_destination]
    rw [if_pos hsrc, hdest]

/-- Witness for `destination_none_typeerror`: the CLI argument vector for
a run without `--to`, against an existing source. -/
theorem destination_none_typeerror_witness :
    ∃ msg, resolve_destination
        { source := "/tmp/test.txt", destination := some none }
        (pathOfString "/tmp/test.txt")
        { year := 2024, month := 11, day := 3, hour := 9, minute := 43, second := 23,
          microsecond := 0 } = .error (.typeError msg) ∧
      backerUpperCall [] { sources := ["/tmp/test.txt"], destFiles := [] }
        { year := 2024, month := 11, day := 3, hour := 9, minute := 43, second := 23,
          microsecond := 0 }
        { source := "/tmp/test.txt", destination := some none } =
        .error (.typeError msg, { sources := ["/tmp/test.txt"], destFiles := [] }) :=
  destination_none_typeerror _ _ _ _ (by decide) (by decide)

/-- C1 (amended): on success the CLI exits 0 with no error logged; on an
unhandled error from the run the error is logged, but the exception is
re-raised — and the process therefore exits non-zero — only when `--debug`
is set; without `--debug` the handler swallows the exception and the
process exits 0. -/
theorem cli_exit_behavior_amended (unlinkFails : List String) (fs : FS) (now : UtcTime)
    (kw : Kwargs) (debug : Bool) :
    ((cliMain unlinkFails fs now kw debug).1 ≠ 0 ↔
      ((backerUpperCall unlinkFails fs now kw).isOk = false ∧ debug = true)) ∧
    ((cliMain unlinkFails fs now kw debug).2 = true ↔
      (backerUpperCall unlinkFails fs now kw).isOk = false) := by
  unfold cliMain
  cases hr : backerUpperCall unlinkFails fs now kw with
  | ok v => simp [Except.isOk, Except.toBool]
  | error e => cases debug <;> simp [Except.isOk, Except.toBool]

/-- Counterexample to C1 as stated: a run that ends in an unhandled error
(missing source) under the default, non-debug verbosity logs the error
but exits 0, not non-zero. -/
theorem cli_error_exit_zero_counterexample :
    backerUpperCall [] { sources := [], destFiles := [] } ⟨2024, 11, 3, 9, 43, 23, 0⟩
        { source := "/data/x" } =
      .error (.fileNotFoundError "/data/x", { sources := [], destFiles := [] }) ∧
    cliMain [] { sources := [], destFiles := [] } ⟨2024, 11, 3, 9, 43, 23, 0⟩
        { source := "/data/x" } false = (0, true) :=
  ⟨rfl, rfl⟩

/-- C4 (amended): during retention enforcement the archives past the kept
prefix are unlinked one at a time, and a failure to delete one archive
raises immediately: the deletions before the failing archive have
happened, the failing archive and every archive after it in deletion
order are still present, and no further deletion is attempted. -/
theorem deletion_failure_aborts_loop (unlinkFails files pre post : List String) (x : String)
    (hx : x ∈ unlinkFails) (hpre : ∀ y ∈ pre, y ∉ unlinkFails) :
    deleteLoop unlinkFails files (pre ++ x :: post) =
      .error (.osError x, pre.foldl List.erase files) := by
  induction pre generalizing files with
  | nil =>
    rw [List.nil_append]
    unfold deleteLoop
    rw [if_pos hx]
    rfl
  | cons p pre ih =>
    rw [List.cons_append]
    unfold deleteLoop
    rw [if_neg (hpre p (by simp))]
    exact ih (files.erase p) (fun y hy => hpre y (by simp [hy]))

/-- Witness for `deletion_failure_aborts_loop` at a concrete deletion
list: the first deletion succeeds, the second raises, the third is never
attempted. -/
theorem deletion_failure_aborts_loop_witness :
    deleteLoop ["data.b.tgz"] ["data.a.tgz", "data.b.tgz", "data.c.tgz", "data.d.tgz"]
        (["data.c.tgz"] ++ "data.b.tgz" :: ["data.a.tgz"]) =
      .error (.osError "data.b.tgz",
        ["data.c.tgz"].foldl List.erase
          ["data.a.tgz", "data.b.tgz", "data.c.tgz", "data.d.tgz"]) :=
  deletion_failure_aborts_loop _ _ _ _ _ (by decide) (by decide)

/-- Counterexample to C4 as stated: with retention count 1 over three
matching archives, the deletion of `data.b.tgz` fails and the loop
aborts, so `data.a.tgz` — whose own deletion would have succeeded — is
never attempted and survives, as the unchanged listing in the error shows. -/
theorem deletion_abort_counterexample :
    remove_previous_archives ["data.b.tgz"] { source := "/s", retention_count := 1 }
        ["data.a.tgz", "data.b.tgz", "data.c.tgz"] { parent := "/b", name := "data.t.tgz" } =
      .error (.osError "data.b.tgz", ["data.a.tgz", "data.b.tgz", "data.c.tgz"]) ∧
    ("data.a.tgz" ∈ (["data.a.tgz", "data.b.tgz", "data.c.tgz"] : List String) ∧
      "data.a.tgz" ∉ (["data.b.tgz"] : List String)) :=
  ⟨rfl, by decide⟩

/-- C6: for every sequential-scheme rotation in which some matching
archive has a marker segment that is not a valid integer, rotation fails
with a `ValueError` carrying the offending marker segment — which, the
stem and extension being fixed by the pattern, identifies the malformed
filename — and the directory listing is returned unchanged: no archive
was renamed and the malformed archive was not silently skipped. -/
theorem malformed_marker_raises (kw : Kwargs) (files : List String) (archive : PyPath)
    (x : String) (hseq : kw.sequential = true)
    (hx : x ∈ (gather_matching_archives files archive).2)
    (hbad : pyParseInt? (markerSeg x) = none) :
    ∃ bad ∈ (gather_matching_archives files archive).2,
      pyParseInt? (markerSeg bad) = none ∧
      move_previous_archives kw files archive = .error (.valueError (markerSeg bad), files) := by
  obtain ⟨bad, hmem, hbadp, heq⟩ := markerItems_error hx hbad
  refine ⟨bad, hmem, hbadp, ?_⟩
  simp only [move_previous_archives]
  rw [hseq]
  rw [if_neg (by simp), if_neg (by
    rw [List.isEmpty_iff]
    exact List.ne_nil_of_mem hx), heq]

/-- Witness for `malformed_marker_raises`: a timestamp-named archive in a
destination rotated sequentially. -/
theorem malformed_marker_raises_witness :
    ∃ bad ∈ (gather_matching_archives ["log.2024-11-03T09-43-23-123456Z.tgz"]
        { parent := "/b", name := "log.1.tgz" }).2,
      pyParseInt? (markerSeg bad) = none ∧
      move_previous_archives { source := "/s/log", sequential := true }
          ["log.2024-11-03T09-43-23-123456Z.tgz"] { parent := "/b", name := "log.1.tgz" } =
        .error (.valueError (markerSeg bad), ["log.2024-11-03T09-43-23-123456Z.tgz"]) :=
  malformed_marker_raises _ _ _ "log.2024-11-03T09-43-23-123456Z.tgz"
    (by decide) (by decide) (by decide)

/-- C9: for every compressed, timestamp-scheme run (against a destination
argument that is absent or a path), the computed archive filename is
`<basename>.<marker>.tgz` where the marker is the current UTC time in the
fixed-width format YYYY-MM-DDTHH-MM-SS-ffffffZ: the name matches the
specification regex for timestamp archive names. -/
theorem timestamp_archive_name_shape (kw : Kwargs) (source : PyPath) (now : UtcTime)
    (hseq : kw.sequential = false) (hunc : kw.uncompressed = false)
    (hdest : kw.destination ≠ some none)
    (hyear1 : 1000 ≤ now.year) (hyear2 : now.year ≤ 9999)
    (hmonth1 : 1 ≤ now.month) (hmonth2 : now.month ≤ 12)
    (hday1 : 1 ≤ now.day) (hday2 : now.day ≤ 31)
    (hhour : now.hour ≤ 23) (hminute : now.minute ≤ 59) (hsecond : now.second ≤ 59)
    (hmicro : now.microsecond ≤ 999999) :
    ∃ archive, resolve_destination kw source now = .ok archive ∧
      timestampArchiveName source.name archive.name := by
  have hmk : ∀ l : List Char, (String.mk l).data = l := fun l => rfl
  have hrun : ∀ w n : Nat, digitRun (String.mk (padDigits w n)) w := fun w n =>
    ⟨by rw [String.length_mk, padDigits_length], fun c hc => padDigits_all_digits w n c hc⟩
  have hshape : timestampArchiveName source.name
      (source.name ++ "." ++ strftimeMarker now ++ "." ++ "tgz") := by
    refine ⟨String.mk (padDigits 4 now.year), String.mk (padDigits 2 now.month),
      String.mk (padDigits 2 now.day), String.mk (padDigits 2 now.hour),
      String.mk (padDigits 2 now.minute), String.mk (padDigits 2 now.second),
      String.mk (padDigits 6 now.microsecond), hrun 4 _, hrun 2 _, hrun 2 _, hrun 2 _,
      hrun 2 _, hrun 2 _, hrun 6 _, ?_⟩
    apply stringDataEq
    simp only [String.data_append, strftimeMarker, hmk,
      show ("." : String).data = ['.'] from rfl,
      show ("-" : String).data = ['-'] from rfl,
      show ("T" : String).data = ['T'] from rfl,
      show ("Z.tgz" : String).data = ['Z', '.', 't', 'g', 'z'] from rfl,
      show ("tgz" : String).data = ['t', 'g', 'z'] from rfl]
    simp [List.append_assoc]
  cases hd : kw.destination with
  | none =>
    refine ⟨{ parent := source.parent,
              name := source.name ++ "." ++ strftimeMarker now ++ "." ++ "tgz" }, ?_, hshape⟩
    simp only [resolve_destination]
    rw [hd]
    simp [hseq, hunc]
  | some od =>
    cases od with
    | none => exact absurd hd hdest
    | some d =>
      refine ⟨{ parent := d,
                name := source.name ++ "." ++ strftimeMarker now ++ "." ++ "tgz" }, ?_, hshape⟩
      simp only [resolve_destination]
      rw [hd]
      simp [hseq, hunc]

/-- Witness for `timestamp_archive_name_shape` at a concrete time and
source, with default (compressed, timestamp) flags. -/
theorem timestamp_archive_name_shape_witness :
    ∃ archive, resolve_destination { source := "/tmp/test.txt" }
        { parent := "/tmp", name := "test.txt" } ⟨2024, 11, 3, 9, 43, 23, 1234⟩ =
        .ok archive ∧
      timestampArchiveName "test.txt" archive.name :=
  timestamp_archive_name_shape _ _ _ (by decide) (by decide) (by decide) (by decide)
    (by decide) (by decide) (by decide) (by decide) (by decide) (by decide) (by decide)
    (by decide) (by decide)

/-! ### Sequential archive names -/

theorem dotJoin_three (a b c : String) : dotJoin [a, b, c] = a ++ "." ++ b ++ "." ++ c := by
  simp [dotJoin, String.append_assoc]

theorem seqArchiveName_inj (stem ext : String) {a b : Int}
    (h : seqArchiveName stem a ext = seqArchiveName stem b ext) : a = b := by
  unfold seqArchiveName at h
  have hd := congrArg String.data h
  have hsh : ∀ m : Int, (stem ++ "." ++ pyStrInt m ++ "." ++ ext).data =
      (stem.data ++ ['.']) ++ ((pyStrInt m).data ++ ('.' :: ext.data)) := by
    intro m
    simp only [String.data_append, show ("." : String).data = ['.'] from rfl,
      List.append_assoc, List.cons_append, List.nil_append]
  rw [hsh a, hsh b] at hd
  have h1 := List.append_cancel_left hd
  have h2 := List.append_cancel_right h1
  exact pyStrInt_inj (stringDataEq h2)

theorem globMatch_seqArchiveName (stem ext : String) (m : Int) :
    globMatch stem ext (seqArchiveName stem m ext) = true :=
  globMatch_concat stem (pyStrInt m) ext

theorem markerSeg_seqArchiveName (stem ext : String) (m : Int)
    (hext : ∀ c ∈ ext.data, c ≠ '.') :
    markerSeg (seqArchiveName stem m ext) = pyStrInt m :=
  markerSeg_concat stem (pyStrInt m) ext (pyStrInt_no_dot m) hext

theorem markerVal_seqArchiveName (stem ext : String) (m : Int)
    (hext : ∀ c ∈ ext.data, c ≠ '.') :
    markerVal (seqArchiveName stem m ext) = m := by
  unfold markerVal
  rw [markerSeg_seqArchiveName stem ext m hext, pyParseInt?_pyStrInt]
  rfl

theorem incrementName_seqArchiveName (stem ext : String) (m : Int)
    (hext : ∀ c ∈ ext.data, c ≠ '.') :
    incrementName (seqArchiveName stem m ext) = seqArchiveName stem (m + 1) ext := by
  unfold incrementName seqArchiveName
  rw [rsplitDot2_concat stem (pyStrInt m) ext (pyStrInt_no_dot m) hext]
  show dotJoin ([stem, pyStrInt m, ext].set 1
      (pyStrInt ((pyParseInt? ([stem, pyStrInt m, ext].getD 1 "")).getD 0 + 1))) =
    stem ++ "." ++ pyStrInt (m + 1) ++ "." ++ ext
  rw [show [stem, pyStrInt m, ext].getD 1 "" = pyStrInt m from rfl, pyParseInt?_pyStrInt]
  show dotJoin [stem, pyStrInt (m + 1), ext] = stem ++ "." ++ pyStrInt (m + 1) ++ "." ++ ext
  exact dotJoin_three _ _ _

theorem insertName_of_not_mem {files : List String} {n : String} (h : n ∉ files) :
    insertName files n = files ++ [n] := by
  unfold insertName
  rw [if_neg h]

/-! ### No rename collisions when rotating in descending marker order -/

theorem rotation_no_collision (stem ext : String) (ms0 : List Int) (origF : List String)
    (horig : ∀ y, y ∈ origF → globMatch stem ext y = true →
      ∃ m ∈ ms0, y = seqArchiveName stem m ext) :
    ∀ (todo done : List Int) (curF : List String),
      curF.Nodup →
      (done ++ todo).Pairwise (fun a b => b < a) →
      (∀ m : Int, m ∈ ms0 → m ∈ done ++ todo) →
      (∀ y, y ∈ curF ↔
        ((y ∈ origF ∧ y ∉ done.map (fun m => seqArchiveName stem m ext)) ∨
          y ∈ done.map (fun m => seqArchiveName stem (m + 1) ext))) →
      collisionFree curF (todo.map (fun m =>
        (seqArchiveName stem m ext, seqArchiveName stem (m + 1) ext))) = true := by
  intro todo
  induction todo with
  | nil =>
    intro done curF _ _ _ _
    rfl
  | cons m todo ih =>
    intro done curF hndF hpw hcov hmem
    have hmnotbig : ∀ t ∈ todo, t < m := by
      have h1 : (m :: todo).Pairwise (fun a b => b < a) := (List.pairwise_append.mp hpw).2.1
      intro t ht
      exact (List.pairwise_cons.mp h1).1 t ht
    have hdone_gt : ∀ d ∈ done, m < d := by
      intro d hd
      exact (List.pairwise_append.mp hpw).2.2 d hd m (by simp)
    have hkey : seqArchiveName stem (m + 1) ext ∉ curF := by
      intro hin
      rcases (hmem _).mp hin with ⟨hinF, hnotold⟩ | hinnew
      · obtain ⟨m2, hm20, heq⟩ := horig _ hinF (globMatch_seqArchiveName stem ext (m + 1))
        have hm2eq : m + 1 = m2 := seqArchiveName_inj stem ext heq
        subst hm2eq
        have hplace := hcov _ hm20
        rw [List.mem_append, List.mem_cons] at hplace
        rcases hplace with hind | hik | hint
        · exact hnotold (List.mem_map.mpr ⟨_, hind, rfl⟩)
        · omega
        · have := hmnotbig _ hint
          omega
      · obtain ⟨md, hmd, heq⟩ := List.mem_map.mp hinnew
        have hmdeq : md + 1 = m + 1 := seqArchiveName_inj stem ext heq
        have := hdone_gt _ hmd
        omega
    have hkey2 : seqArchiveName stem (m + 1) ext ∉
        curF.erase (seqArchiveName stem m ext) :=
      fun hc => hkey (List.mem_of_mem_erase hc)
    rw [List.map_cons]
    unfold collisionFree
    rw [Bool.and_eq_true]
    refine ⟨by simpa using hkey2, ?_⟩
    rw [insertName_of_not_mem hkey2]
    have hnd2 : (curF.erase (seqArchiveName stem m ext) ++
        [seqArchiveName stem (m + 1) ext]).Nodup := by
      refine (hndF.erase _).append (by simp) ?_
      intro y hy1 hy2
      simp only [List.mem_singleton] at hy2
      subst hy2
      exact hkey2 hy1
    have hpw2 : ((done ++ [m]) ++ todo).Pairwise (fun a b => b < a) := by
      rw [List.append_assoc]
      exact hpw
    have hcov2 : ∀ m2 : Int, m2 ∈ ms0 → m2 ∈ (done ++ [m]) ++ todo := by
      intro m2 hm2
      rw [List.append_assoc]
      exact hcov m2 hm2
    have hmem2 : ∀ y, y ∈ curF.erase (seqArchiveName stem m ext) ++
        [seqArchiveName stem (m + 1) ext] ↔
        ((y ∈ origF ∧ y ∉ (done ++ [m]).map (fun m => seqArchiveName stem m ext)) ∨
          y ∈ (done ++ [m]).map (fun m => seqArchiveName stem (m + 1) ext)) := by
      intro y
      rw [List.mem_append, List.mem_singleton, hndF.mem_erase_iff, hmem y]
      simp only [List.map_append, List.map_cons, List.map_nil, List.mem_append,
        List.mem_singleton]
      constructor
      · rintro (⟨hne, ⟨hinF, hnotold⟩ | hinnew⟩ | hnew)
        · exact Or.inl ⟨hinF, by
            rintro (h | h)
            · exact hnotold h
            · exact hne h⟩
        · exact Or.inr (Or.inl hinnew)
        · exact Or.inr (Or.inr hnew)
      · rintro (⟨hinF, hnot⟩ | (hinnew | hnew))
        · refine Or.inl ⟨fun he => hnot (Or.inr he), Or.inl ⟨hinF, fun h => hnot (Or.inl h)⟩⟩
        · refine Or.inl ⟨?_, Or.inr hinnew⟩
          intro he
          obtain ⟨md, hmd, heq⟩ := List.mem_map.mp hinnew
          rw [he] at heq
          have hmdeq : md + 1 = m := seqArchiveName_inj stem ext heq
          have := hdone_gt _ hmd
          omega
        · exact Or.inr hnew
    exact ih (done ++ [m]) _ hnd2 hpw2 hcov2 hmem2

/-- C3: for every sequential-scheme run against a destination whose
matching archives carry pairwise-distinct positive integer markers, the
rotation engine renames the archives in strictly descending marker order,
each marker becoming exactly marker + 1 (plain decimal, no padding), no
rename target collides with any file present at the moment of that
rename, and the newly computed archive carries marker 1. -/
theorem rotation_renames_descending (kw : Kwargs) (source : PyPath) (now : UtcTime)
    (files : List String) (ms : List Int) (archive : PyPath) (ext : String)
    (hseq : kw.sequential = true)
    (hext : (if kw.uncompressed then "tar" else "tgz") = ext)
    (hres : resolve_destination kw source now = .ok archive)
    (hnd : files.Nodup)
    (hpos : ∀ m ∈ ms, 0 < m)
    (hmnd : ms.Nodup)
    (hmatch : (gather_matching_archives files archive).2 =
      ms.map (fun m => seqArchiveName source.name m ext)) :
    archive.name = seqArchiveName source.name 1 ext ∧
    ∃ (files₂ : List String) (ms₂ : List Int),
      move_previous_archives kw files archive =
        .ok (files₂, ms₂.map (fun m =>
          (seqArchiveName source.name m ext, seqArchiveName source.name (m + 1) ext))) ∧
      ms₂.Perm ms ∧
      ms₂.Pairwise (fun a b => b < a) ∧
      collisionFree files (ms₂.map (fun m =>
        (seqArchiveName source.name m ext, seqArchiveName source.name (m + 1) ext))) = true := by
  have hextnd : ∀ c ∈ ext.data, c ≠ '.' := by
    rw [← hext]
    cases kw.uncompressed <;> decide
  have hax : archive.name = seqArchiveName source.name 1 ext := by
    have hres2 := hres
    simp only [resolve_destination, hseq] at hres2
    rw [← hext]
    cases hd : kw.destination with
    | none =>
      rw [hd] at hres2
      simp at hres2
      rw [← hres2]
      rfl
    | some od =>
      cases od with
      | none =>
        rw [hd] at hres2
        simp at hres2
      | some d =>
        rw [hd] at hres2
        simp at hres2
        rw [← hres2]
        rfl
  refine ⟨hax, ?_⟩
  have hsplit : rsplitDot2 archive.name = [source.name, pyStrInt 1, ext] := by
    rw [hax]
    exact rsplitDot2_concat source.name (pyStrInt 1) ext (pyStrInt_no_dot 1) hextnd
  have hgather : (gather_matching_archives files archive).2 =
      files.filter (fun n => globMatch source.name ext n) := by
    simp only [gather_matching_archives, hsplit]
    rfl
  by_cases hms : ms = []
  · subst hms
    refine ⟨files, [], ?_, List.Perm.refl [], List.Pairwise.nil, rfl⟩
    simp only [move_previous_archives, hseq]
    rw [if_neg (by simp), if_pos (by rw [List.isEmpty_iff, hmatch]; rfl)]
    rfl
  · have hparse : ∀ nm ∈ (gather_matching_archives files archive).2,
        (pyParseInt? (markerSeg nm)).isSome = true := by
      rw [hmatch]
      intro nm hnm
      obtain ⟨m, hm, rfl⟩ := List.mem_map.mp hnm
      rw [markerSeg_seqArchiveName source.name ext m hextnd, pyParseInt?_pyStrInt]
      rfl
    have hne : (gather_matching_archives files archive).2 ≠ [] := by
      rw [hmatch]
      intro hc
      exact hms (List.map_eq_nil_iff.mp hc)
    have hrem := move_eq_seq kw files archive hseq hne hparse
    have hitems : (gather_matching_archives files archive).2.map (fun n => (markerVal n, n)) =
        ms.map (fun m => (m, seqArchiveName source.name m ext)) := by
      rw [hmatch, List.map_map]
      apply List.map_congr_left
      intro m hm
      simp only [Function.comp_apply]
      rw [markerVal_seqArchiveName source.name ext m hextnd]
    rw [hitems] at hrem
    letI : IsTotal (Int × String) (fun a b => b.1 ≤ a.1) :=
      ⟨fun a b => (Int.le_total b.1 a.1).elim Or.inl Or.inr⟩
    letI : IsTrans (Int × String) (fun a b => b.1 ≤ a.1) :=
      ⟨fun a b c hab hbc => le_trans hbc hab⟩
    have hsorted := List.sorted_insertionSort (fun (a b : Int × String) => b.1 ≤ a.1)
      (ms.map (fun m => (m, seqArchiveName source.name m ext)))
    have hpermS := List.perm_insertionSort (fun (a b : Int × String) => b.1 ≤ a.1)
      (ms.map (fun m => (m, seqArchiveName source.name m ext)))
    have hpt : ∀ x ∈ List.insertionSort (fun (a b : Int × String) => b.1 ≤ a.1)
        (ms.map (fun m => (m, seqArchiveName source.name m ext))),
        x.2 = seqArchiveName source.name x.1 ext := by
      intro x hx
      obtain ⟨m, hm, rfl⟩ := List.mem_map.mp (hpermS.mem_iff.mp hx)
      rfl
    have hperm2 : (List.insertionSort (fun (a b : Int × String) => b.1 ≤ a.1)
        (ms.map (fun m => (m, seqArchiveName source.name m ext)))).map
          (fun i => i.1) |>.Perm ms := by
      have h1 := hpermS.map (fun i : Int × String => i.1)
      rw [List.map_map] at h1
      have h2 : List.map ((fun i : Int × String => i.1) ∘ fun m =>
          (m, seqArchiveName source.name m ext)) ms = ms := List.map_id' _
      rw [h2] at h1
      exact h1
    have hnames : (List.insertionSort (fun (a b : Int × String) => b.1 ≤ a.1)
        (ms.map (fun m => (m, seqArchiveName source.name m ext)))).map (fun i => i.2) =
        ((List.insertionSort (fun (a b : Int × String) => b.1 ≤ a.1)
          (ms.map (fun m => (m, seqArchiveName source.name m ext)))).map (fun i => i.1)).map
            (fun m => seqArchiveName source.name m ext) := by
      rw [List.map_map]
      exact List.map_congr_left (fun x hx => hpt x hx)
    have hrenames : ((List.insertionSort (fun (a b : Int × String) => b.1 ≤ a.1)
        (ms.map (fun m => (m, seqArchiveName source.name m ext)))).map (fun i => i.2)).map
          (fun item => (item, incrementName item)) =
        ((List.insertionSort (fun (a b : Int × String) => b.1 ≤ a.1)
          (ms.map (fun m => (m, seqArchiveName source.name m ext)))).map (fun i => i.1)).map
            (fun m => (seqArchiveName source.name m ext,
              seqArchiveName source.name (m + 1) ext)) := by
      rw [hnames, List.map_map]
      apply List.map_congr_left
      intro m hm
      simp only [Function.comp_apply]
      rw [incrementName_seqArchiveName source.name ext m hextnd]
    rw [hrenames] at hrem
    have hnd2 : ((List.insertionSort (fun (a b : Int × String) => b.1 ≤ a.1)
        (ms.map (fun m => (m, seqArchiveName source.name m ext)))).map
          (fun i => i.1)).Nodup := hmnd.perm hperm2.symm
    have hpair2 : ((List.insertionSort (fun (a b : Int × String) => b.1 ≤ a.1)
        (ms.map (fun m => (m, seqArchiveName source.name m ext)))).map
          (fun i => i.1)).Pairwise (fun a b => b < a) := by
      have hge : ((List.insertionSort (fun (a b : Int × String) => b.1 ≤ a.1)
          (ms.map (fun m => (m, seqArchiveName source.name m ext)))).map
            (fun i => i.1)).Pairwise (fun a b => b ≤ a) := by
        rw [List.pairwise_map]
        exact hsorted
      have hne2 := hnd2
      exact (hge.and hne2).imp (fun {a b} h => lt_of_le_of_ne h.1 (Ne.symm h.2))
    have horig : ∀ y, y ∈ files → globMatch source.name ext y = true →
        ∃ m ∈ ms, y = seqArchiveName source.name m ext := by
      intro y hy hg
      have : y ∈ (gather_matching_archives files archive).2 := by
        rw [hgather]
        exact List.mem_filter.mpr ⟨hy, hg⟩
      rw [hmatch] at this
      obtain ⟨m, hm, rfl⟩ := List.mem_map.mp this
      exact ⟨m, hm, rfl⟩
    have hcf := rotation_no_collision source.name ext ms files horig
      ((List.insertionSort (fun (a b : Int × String) => b.1 ≤ a.1)
        (ms.map (fun m => (m, seqArchiveName source.name m ext)))).map (fun i => i.1))
      [] files hnd
      (by rw [List.nil_append]; exact hpair2)
      (by
        intro m hm
        rw [List.nil_append]
        exact hperm2.symm.mem_iff.mp hm)
      (by
        intro y
        simp)
    exact ⟨_, _, hrem, hperm2, hpair2, hcf⟩

/-- Witness for `rotation_renames_descending`: a destination holding
sequential archives with markers 1, 2 and 10 next to the source file. -/
theorem rotation_renames_descending_witness :
    ({ parent := "/tmp", name := "test.txt.1.tgz" } : PyPath).name =
        seqArchiveName "test.txt" 1 "tgz" ∧
    ∃ (files₂ : List String) (ms₂ : List Int),
      move_previous_archives { source := "/tmp/test.txt", sequential := true }
          ["test.txt", "test.txt.1.tgz", "test.txt.2.tgz", "test.txt.10.tgz"]
          { parent := "/tmp", name := "test.txt.1.tgz" } =
        .ok (files₂, ms₂.map (fun m =>
          (seqArchiveName "test.txt" m "tgz", seqArchiveName "test.txt" (m + 1) "tgz"))) ∧
      ms₂.Perm [1, 2, 10] ∧
      ms₂.Pairwise (fun a b => b < a) ∧
      collisionFree ["test.txt", "test.txt.1.tgz", "test.txt.2.tgz", "test.txt.10.tgz"]
        (ms₂.map (fun m =>
          (seqArchiveName "test.txt" m "tgz",
            seqArchiveName "test.txt" (m + 1) "tgz"))) = true :=
  rotation_renames_descending _ { parent := "/tmp", name := "test.txt" }
    ⟨2024, 11, 3, 9, 43, 23, 0⟩ _ _ _ _ (by decide) (by decide) rfl (by decide) (by decide)
    (by decide) (by decide)
